import Mathlib

set_option maxRecDepth 100000

/-!
# Verification of the scanseq sequence-detection core

Shallow embedding of the `scanseq-rs` detection engine:
`src/core/file/mod.rs` (path parsing, digit groups, masks, signatures),
`src/core/seq/mod.rs` (sequence grouping), and the `get_file` /
`format_frame` accessors of `src/lib.rs`.

Modelling conventions:
* Rust `String` / `&str` values are modelled as `List Char`; byte offsets
  produced by `char_indices` are modelled as character offsets (all digit
  characters are ASCII, and every recorded offset is a character boundary,
  so slicing behaves identically).
* Rust `usize` becomes `Nat` and `i64` becomes `Int`; the `i64` overflow
  checks of `str::parse::<i64>` are made explicit, and `saturating_add` /
  `saturating_sub` are modelled as plain `Nat` / `Int` arithmetic together
  with the range facts that make saturation unreachable (frame values are
  parsed non-negative in-range `i64` integers).
* The 64-bit `DefaultHasher` signature is modelled by the tuple of hashed
  fields `(drive, path, mask, ext)`; hash collisions between distinct
  tuples are outside the model.
* Rust `HashMap` buckets are modelled as association lists in insertion
  order; the engine's output order is unspecified by the spec, and no
  theorem below depends on bucket iteration order beyond what single-bucket
  examples force.
* The `#[cfg(windows)]` lowercasing in `File::new` is absent: the model
  follows the non-Windows build.
-/

/-- Shorthand to write a character list from a string literal. -/
def str (s : String) : List Char := s.data

/-- Slice `l[a..b]` of a character list (as in Rust `&name[a..b]`, total here;
every use below is guarded by the same bounds checks the source performs, or
by parser-produced well-formed offsets). -/
def strSlice (l : List Char) (a b : Nat) : List Char := (l.drop a).take (b - a)

/-- Last index whose character satisfies `p` (Rust `str::rfind`). -/
def rfindIdx (p : Char → Bool) (l : List Char) : Option Nat :=
  (l.reverse.findIdx? p).map (fun i => l.length - 1 - i)

/-- Path separator test: `['\\', '/']` as used by `find` / `rfind` in
`parse_fpn`. -/
def isSep (c : Char) : Bool := c == '\\' || c == '/'

/-- Split a filename at its last dot (`parse_fpn`'s `last_dot` logic):
`Some(pos) if pos > 0` splits into `name` / `ext`, otherwise the whole
filename is the name and the extension is empty. -/
def splitExt (filename : List Char) : List Char × List Char :=
  match rfindIdx (fun c => c == '.') filename with
  | some pos => if pos > 0 then (filename.take pos, filename.drop pos) else (filename, [])
  | none => (filename, [])

/-- State-machine loop of `extract_num_groups`: walks the characters with
their positions, tracking whether the cursor is inside a digit run and where
that run started, pushing `(start, length)` when a run ends. -/
def extractLoop : List Char → Nat → Bool → Nat → List (Nat × Nat) → List (Nat × Nat)
  | [], pos, inDigit, start, groups =>
      if inDigit then groups ++ [(start, pos - start)] else groups
  | c :: rest, pos, inDigit, start, groups =>
      if c.isDigit then
        if inDigit then extractLoop rest (pos + 1) true start groups
        else extractLoop rest (pos + 1) true pos groups
      else
        if inDigit then extractLoop rest (pos + 1) false start (groups ++ [(start, pos - start)])
        else extractLoop rest (pos + 1) false start groups

/-- Positions of maximal ASCII-digit runs in a name (`extract_num_groups`). -/
def extract_num_groups (name : List Char) : List (Nat × Nat) :=
  extractLoop name 0 false 0 []

/-- Parsed path components, the quintuple returned by `parse_fpn`. -/
structure ParsedFpn where
  drive : List Char
  path : List Char
  name : List Char
  ext : List Char
  num_groups : List (Nat × Nat)
deriving DecidableEq, Repr

/-- Decompose a full path into `(drive, path, name, ext, num_groups)`
(`parse_fpn` in `src/core/file/mod.rs`). -/
def parse_fpn (fpn : List Char) : ParsedFpn :=
  match fpn.findIdx? isSep with
  | none =>
      let (name, ext) := splitExt fpn
      ⟨[], [], name, ext, extract_num_groups name⟩
  | some pos =>
      let drive := fpn.take pos
      let after_drive := fpn.drop pos
      let (path_part, filename) :=
        match rfindIdx isSep after_drive with
        | some p => (after_drive.take (p + 1), after_drive.drop (p + 1))
        | none => ([], after_drive)
      let (name, ext) := splitExt filename
      ⟨drive, path_part, name, ext, extract_num_groups name⟩

/-- Replace every digit group of `name` by a single `@` (`make_mask`). -/
def make_mask (name : List Char) (groups : List (Nat × Nat)) : List Char :=
  if groups = [] then name
  else
    let st := groups.foldl
      (fun (st : Nat × List Char) (g : Nat × Nat) =>
        (g.1 + g.2, st.2 ++ strSlice name st.1 g.1 ++ ['@'])) (0, [])
    st.2 ++ name.drop st.1

/-- Parsed file record (`File` in `src/core/file/mod.rs`; the stored
`fpn : PathBuf` only echoes the input and is kept for fidelity). -/
structure File where
  fpn : List Char
  drive : List Char
  path : List Char
  name : List Char
  ext : List Char
  num_groups : List (Nat × Nat)
  mask : List Char
deriving DecidableEq, Repr

/-- Parse a path into a `File` (`File::new`, non-Windows build: no
lowercasing). -/
def File.new (p : List Char) : File :=
  let q := parse_fpn p
  ⟨p, q.drive, q.path, q.name, q.ext, q.num_groups, make_mask q.name q.num_groups⟩

/-- True when the filename contains digit groups (`File::has_nums`). -/
def File.has_nums (f : File) : Bool := !f.num_groups.isEmpty

/-- Grouping signature (`signature_hash`): the 64-bit hash of
`drive + path + mask + ext` is modelled by the hashed tuple itself. -/
def signature_key (f : File) : List Char × List Char × List Char × List Char :=
  (f.drive, f.path, f.mask, f.ext)

/-- Maximum gap size expanded into the missed-frames list (`MAX_MISSED_GAP`,
OOM protection). -/
def MAX_MISSED_GAP : Int := 100000

/-- Value of a digit string, most significant first. -/
def digitsVal (l : List Char) : Nat :=
  l.foldl (fun a c => 10 * a + (c.toNat - 48)) 0

/-- Rust `str::parse::<i64>`: optional sign, then one or more ASCII digits,
rejecting values outside the `i64` range. -/
def parse_i64 (s : List Char) : Option Int :=
  let (sign, digits) : Int × List Char :=
    match s with
    | '+' :: rest => (1, rest)
    | '-' :: rest => (-1, rest)
    | _ => (1, s)
  if digits ≠ [] ∧ digits.all Char.isDigit then
    let v : Int := sign * (digitsVal digits : Nat)
    if -(2 ^ 63) ≤ v ∧ v ≤ 2 ^ 63 - 1 then some v else none
  else none

/-- Frame value of one file at digit-group position `idx`: the body of the
`filter_map` in `Seq::from_files` — `None` when the file has no group at
`idx`, when the recorded bounds exceed the name's length, or when the slice
fails `i64` parsing. (`start.saturating_add(len)` is plain `Nat` addition,
which cannot overflow.) -/
def extractFrame (idx : Nat) (f : File) : Option Int :=
  match f.num_groups[idx]? with
  | none => none
  | some (start, len) =>
      if start + len ≤ f.name.length then
        parse_i64 (strSlice f.name start (start + len))
      else none

/-- Ascending sort of frame values (`Vec::sort_unstable`, modelled by
insertion sort — the sort algorithm itself is unobservable, only the sorted
result matters). -/
def sortInts (l : List Int) : List Int := l.insertionSort (· ≤ ·)

/-- Remove consecutive duplicates (`Vec::dedup`). -/
def dedupAdj : List Int → List Int
  | [] => []
  | [a] => [a]
  | a :: b :: rest => if a = b then dedupAdj (b :: rest) else a :: dedupAdj (b :: rest)

/-- Integers from `a` (inclusive) to `b` (exclusive): `(a..b)` in Rust. -/
def intRange (a b : Int) : List Int :=
  (List.range (b - a).toNat).map (fun (i : Nat) => a + (i : Int))

/-- Gap walk of `Seq::from_files`: for every consecutive pair of sorted
deduplicated frames with `1 < gap ≤ MAX_MISSED_GAP`, enumerate the integers
strictly between them; larger gaps are skipped. (`saturating_sub` is plain
subtraction: frames are non-negative in-range `i64` parses, so saturation is
unreachable.) -/
def missedOf : List Int → List Int
  | a :: b :: rest =>
      (if 1 < b - a ∧ b - a ≤ MAX_MISSED_GAP then intRange (a + 1) b else [])
        ++ missedOf (b :: rest)
  | _ => []

/-- Frame-group widths collected by `detect_padding`'s loop: one entry per
file having a digit group at `grp_idx`, whether or not its slice parses. -/
def frameWidths (files : List File) (grp_idx : Nat) : List Nat :=
  files.filterMap (fun f => (f.num_groups[grp_idx]?).map Prod.snd)

/-- Padding detection (`detect_padding`): the set of frame-group widths over
all files having a group at `grp_idx` (the `HashSet` is modelled by `dedup`);
a single common width is the padding, anything else is `0`. -/
def detect_padding (files : List File) (grp_idx : Nat) : Nat :=
  let lens := (frameWidths files grp_idx).dedup
  if lens.length = 1 then lens.headD 0 else 0

/-- Loop body of `gen_pattern` over the enumerated digit groups, carrying the
cursor `pos` and the accumulated output: malformed groups (start or end out
of bounds, or overlapping the cursor) are skipped, the frame group becomes
`@` (padding ≤ 1) or `padding` copies of `#`, anchors keep their literal
text. -/
def genLoop (name : List Char) (nameLen : Nat) (fidx padding : Nat) :
    List (Nat × Nat) → Nat → Nat → List Char → Nat × List Char
  | [], _, pos, result => (pos, result)
  | (start, len) :: rest, idx, pos, result =>
      let e := start + len
      if start > nameLen ∨ e > nameLen ∨ pos > start then
        genLoop name nameLen fidx padding rest (idx + 1) pos result
      else
        let r1 := result ++ strSlice name pos start
        let r2 :=
          if idx = fidx then
            if padding ≤ 1 then r1 ++ ['@'] else r1 ++ List.replicate padding '#'
          else r1 ++ strSlice name start e
        genLoop name nameLen fidx padding rest (idx + 1) e r2

/-- Pattern generation (`gen_pattern`): render the representative file's name
with the frame group substituted, append the text after the last group, and
prepend `drive` and the directory with `\` normalized to `/`, appending the
extension. -/
def gen_pattern (file : File) (frame_grp_idx : Nat) (padding : Nat) : List Char :=
  let nameLen := file.name.length
  let st := genLoop file.name nameLen frame_grp_idx padding file.num_groups 0 0 []
  let result := if st.1 ≤ nameLen then st.2 ++ file.name.drop st.1 else st.2
  file.drive ++ file.path.map (fun c => if c == '\\' then '/' else c) ++ result ++ file.ext

namespace core

/-- Detected sequence (`Seq` in `src/core/seq/mod.rs`; the Rust field `end`
is a Lean keyword and is rendered `end_`). -/
structure Seq where
  indices : List Int
  missed : List Int
  start : Int
  end_ : Int
  padding : Nat
  pattern : List Char
deriving DecidableEq, Repr

/-- Build a sequence from the files of one sub-group (`Seq::from_files`):
extract each file's frame value through `extractFrame`, sort and dedup,
bail out on an empty file list or no valid frame, and otherwise record
range, gaps, padding and pattern. -/
def Seq.from_files (files : List File) (frame_grp_idx : Nat) : Option Seq :=
  match files with
  | [] => none
  | f0 :: _ =>
      match dedupAdj (sortInts (files.filterMap (extractFrame frame_grp_idx))) with
      | [] => none
      | a :: rest =>
          let padding := detect_padding files frame_grp_idx
          some
            { indices := a :: rest
              missed := missedOf (a :: rest)
              start := a
              end_ := (a :: rest).getLast (List.cons_ne_nil a rest)
              padding := padding
              pattern := gen_pattern f0 frame_grp_idx padding }

/-- Number of distinct parsed integer values at digit-group position
`grp_idx` across a bucket's files (the `HashSet`'s final size in
`find_frame_group`; the inner bounds and parse checks coincide with
`extractFrame`). -/
def distinctCount (files : List File) (grp_idx : Nat) : Nat :=
  (files.filterMap (extractFrame grp_idx)).dedup.length

/-- Maximum digit-group count over a bucket
(`files.iter().map(..).max().unwrap_or(0)`). -/
def maxNumGroups (files : List File) : Nat :=
  (files.map (fun f => f.num_groups.length)).foldr max 0

/-- Choose the frame-bearing digit group (`find_frame_group`): the position
with the most distinct parsed values, preferring the rightmost on ties
(`>=` update in the source loop). -/
def find_frame_group (files : List File) : Nat :=
  let n := maxNumGroups files
  if n = 0 then 0
  else
    ((List.range n).foldl
      (fun (b : Nat × Nat) i =>
        let c := distinctCount files i
        if b.2 ≤ c then (i, c) else b)
      (n - 1, 0)).1

/-- Anchor key (`make_anchor_key`): the in-bounds literal texts of every
digit group except the frame group, joined with `_`. -/
def make_anchor_key (f : File) (frame_grp_idx : Nat) : List Char :=
  let parts := f.num_groups.enum.filterMap
    (fun (g : Nat × Nat × Nat) =>
      if g.1 ≠ frame_grp_idx ∧ g.2.1 + g.2.2 ≤ f.name.length then
        some (strSlice f.name g.2.1 (g.2.1 + g.2.2))
      else none)
  List.intercalate (str ("_")) parts

/-- Append a file under its key in an association-list bucket map (models
`HashMap::entry(..).or_default().push(file)`; insertion order is kept). -/
def upsert {κ : Type} [DecidableEq κ] (acc : List (κ × List File)) (k : κ) (f : File) :
    List (κ × List File) :=
  match acc with
  | [] => [(k, [f])]
  | (k', fs) :: rest =>
      if k' = k then (k', fs ++ [f]) :: rest else (k', fs) :: upsert rest k f

/-- Anchor sub-grouping (`sub_group_by_anchors`), a bucket map keyed by
anchor key. -/
def sub_group_by_anchors (files : List File) (frame_grp_idx : Nat) :
    List (List Char × List File) :=
  files.foldl (fun acc f => upsert acc (make_anchor_key f frame_grp_idx) f) []

/-- Group parsed files into sequences (`Seq::group_seqs`): drop files
without digit groups, bucket by signature, skip singleton buckets, pick the
frame group, sub-group by anchors, and build a `Seq` for every sub-group of
at least two files. -/
def Seq.group_seqs (flist : List File) : List Seq :=
  let by_hash := flist.foldl
    (fun acc f => if f.has_nums then upsert acc (signature_key f) f else acc) []
  by_hash.flatMap (fun kv =>
    let files := kv.2
    if files.length < 2 then []
    else
      let frame_grp_idx := find_frame_group files
      (sub_group_by_anchors files frame_grp_idx).flatMap (fun kv2 =>
        if 2 ≤ kv2.2.length then (Seq.from_files kv2.2 frame_grp_idx).toList else []))

end core

/-- Decimal digits of an `i64` value (Rust `i64::to_string`). -/
def intToString (n : Int) : List Char :=
  if n < 0 then '-' :: Nat.toDigits 10 n.natAbs else Nat.toDigits 10 n.natAbs

/-- Zero-padded decimal rendering, Rust `format!` with a `:0width` spec:
left-pad with `0` up to `width`, the sign staying in front. -/
def zeroPad (width : Nat) (n : Int) : List Char :=
  let s := intToString n
  if s.length < width then
    if n < 0 then '-' :: (List.replicate (width - s.length) '0' ++ s.tail)
    else List.replicate (width - s.length) '0' ++ s
  else s

/-- Rust `str::replace`: substitute every non-overlapping occurrence of
`pat` in `s` by `rep`, scanning left to right (callers never pass an empty
pattern; the empty-pattern guard only serves totality). -/
def replaceAll (s pat rep : List Char) : List Char :=
  if h : pat = [] then s
  else if hp : pat.isPrefixOf s then rep ++ replaceAll (s.drop pat.length) pat rep
  else
    match s with
    | [] => []
    | c :: rest => c :: replaceAll rest pat rep
termination_by s.length
decreasing_by
  · have h1 : 0 < pat.length := List.length_pos.mpr h
    have h2 : pat.length ≤ s.length := List.IsPrefix.length_le (List.isPrefixOf_iff_prefix.mp hp)
    simpa using Nat.sub_lt (Nat.lt_of_lt_of_le h1 h2) h1
  · simp

/-- Python-facing sequence record (`PySeq` in `src/lib.rs`; field values are
copied verbatim from a `core::Seq` by the `From` impl). -/
structure PySeq where
  pattern : List Char
  start : Int
  end_ : Int
  padding : Nat
  indices : List Int
  missed : List Int
deriving DecidableEq, Repr

/-- The `From<CoreSeq> for PySeq` conversion. -/
def pySeqOfSeq (s : core.Seq) : PySeq :=
  ⟨s.pattern, s.start, s.end_, s.padding, s.indices, s.missed⟩

/-- Frame rendering (`PySeq::format_frame`): substitute the run of `#`
placeholders by the zero-padded frame when `padding >= 2`, else substitute
`@` by the bare decimal value. -/
def PySeq.format_frame (s : PySeq) (frame : Int) : List Char :=
  if 2 ≤ s.padding then
    replaceAll s.pattern (List.replicate s.padding '#') (zeroPad s.padding frame)
  else
    replaceAll s.pattern (str ("@")) (intToString frame)

/-- Binary-search loop over the half-open range `[lo, hi)` of a sorted list
(Rust `slice::binary_search`, modelled by the classic bisection; only the
found / not-found outcome is observable through `get_file`). -/
def bsGo (xs : List Int) (t : Int) (lo hi : Nat) : Bool :=
  if h : lo < hi then
    let mid := (lo + hi) / 2
    match xs[mid]? with
    | none => false
    | some v =>
      if v < t then bsGo xs t (mid + 1) hi
      else if t < v then bsGo xs t lo mid
      else true
  else false
termination_by hi - lo
decreasing_by
  · have h1 : lo ≤ (lo + hi) / 2 := Nat.le_div_iff_mul_le (by omega) |>.mpr (by omega)
    omega
  · have h2 : (lo + hi) / 2 < hi := Nat.div_lt_of_lt_mul (by omega)
    omega

/-- Whether `t` occurs in `xs` by binary search
(`self.indices.binary_search(&frame).is_ok()`). -/
def binary_search (xs : List Int) (t : Int) : Bool := bsGo xs t 0 xs.length

/-- Frame lookup (`PySeq::get_file`): `Some` of the rendered path when the
frame is found in `indices` by binary search, `None` otherwise. -/
def PySeq.get_file (s : PySeq) (frame : Int) : Option (List Char) :=
  if binary_search s.indices frame then some (s.format_frame frame) else none

/-- Bounds discipline of a digit-group list over a name of length `n`,
threaded through a cursor: every group starts at or after the cursor and
ends within the name. Parser-produced groups satisfy it from cursor `0`. -/
def GroupsWF : Nat → List (Nat × Nat) → Nat → Prop
  | _, [], _ => True
  | pos, (s, l) :: rest, n => pos ≤ s ∧ s + l ≤ n ∧ GroupsWF (s + l) rest n

/-- Name rendering following the spec's pattern description: walk the digit
groups left to right, keep the text between groups, substitute the frame
group by `@` (padding ≤ 1) or a run of `#` (padding ≥ 2), keep each anchor
group's literal text, and keep the text after the last group. Second
definition for the refinement claim about `gen_pattern`. -/
def renderSpecGo (name : List Char) (fidx padding : Nat) :
    Nat → Nat → List (Nat × Nat) → List Char
  | pos, _, [] => name.drop pos
  | pos, idx, (s, l) :: rest =>
      strSlice name pos s
        ++ (if idx = fidx then
              (if padding ≤ 1 then ['@'] else List.replicate padding '#')
            else strSlice name s (s + l))
        ++ renderSpecGo name fidx padding (s + l) (idx + 1) rest

/-- Full pattern following the spec's words: drive, directory with `\`
normalized to `/`, the rendered name, then the extension. -/
def pattern_spec (f : File) (fidx padding : Nat) : List Char :=
  f.drive ++ f.path.map (fun c => if c == '\\' then '/' else c)
    ++ renderSpecGo f.name fidx padding 0 0 f.num_groups ++ f.ext

/-- Frame-group widths of the claim's "surviving" members only: files whose
slice at the frame position is in bounds and parses as an integer (what C5
says `detect_padding` ranges over). -/
def survivingWidths (files : List File) (idx : Nat) : List Nat :=
  files.filterMap (fun f =>
    if (extractFrame idx f).isSome then (f.num_groups[idx]?).map Prod.snd else none)

/-- Example: the two gap-ceiling files of the spec. -/
def gapFiles : List File :=
  [File.new (str ("c:/temp/a_0001.exr")), File.new (str ("c:/temp/a_9999999.exr"))]

/-- Example: the sequence produced from `gapFiles`. -/
def gapSeq : core.Seq :=
  ⟨[1, 9999999], [], 1, 9999999, 0, str ("c:/temp/a_@.exr")⟩

/-- Example: three padded files with one gap. -/
def aaaFiles : List File :=
  [File.new (str ("c:/temp/aaa_001.exr")), File.new (str ("c:/temp/aaa_002.exr")),
   File.new (str ("c:/temp/aaa_005.exr"))]

/-- Example: the sequence produced from `aaaFiles`. -/
def aaaSeq : core.Seq :=
  ⟨[1, 2, 5], [3, 4], 1, 5, 3, str ("c:/temp/aaa_###.exr")⟩

/-- Example: a two-digit-group pair whose frame group is the second one. -/
def shotFiles : List File :=
  [File.new (str ("c:/temp/shot_01_001.exr")), File.new (str ("c:/temp/shot_01_002.exr"))]

/-- Example: the sequence produced from `shotFiles`. -/
def shotSeq : core.Seq :=
  ⟨[1, 2], [], 1, 2, 3, str ("c:/temp/shot_01_###.exr")⟩

/-- Example: two digit-group positions with equal distinct-value counts. -/
def tieFiles : List File :=
  [File.new (str ("c:/temp/render_01_img_001.exr")),
   File.new (str ("c:/temp/render_02_img_002.exr"))]

/-- Example: two files whose frame slices parse to the same value. -/
def dupFiles : List File :=
  [File.new (str ("c:/temp/a_1.exr")), File.new (str ("c:/temp/a_01.exr"))]

/-- Example: two one-digit members and one member whose 20-digit slice
overflows `i64` parsing. -/
def ovFiles : List File :=
  [File.new (str ("c:/temp/a_1.exr")), File.new (str ("c:/temp/a_2.exr")),
   File.new (str ("c:/temp/a_99999999999999999999.exr"))]

/-- Example: the sequence produced from `ovFiles`. -/
def ovSeq : core.Seq :=
  ⟨[1, 2], [], 1, 2, 0, str ("c:/temp/a_@.exr")⟩

/-- Example: a padded three-frame Python-facing sequence. -/
def psEx : PySeq :=
  ⟨str ("c:/temp/render_###.exr"), 1, 3, 3, [1, 2, 3], []⟩

/-! ## Theorems -/

open core

/-- C1: the four string components produced by the parser reconstruct the
input path exactly — `drive ++ directory ++ name ++ extension` equals the
original string, for every input (any separator style, repeated or mixed
separators, drive or no-drive forms, and bare filenames). -/
theorem parse_fpn_roundtrip (fpn : List Char) :
    (parse_fpn fpn).drive ++ (parse_fpn fpn).path ++ (parse_fpn fpn).name
      ++ (parse_fpn fpn).ext = fpn := by
  unfold parse_fpn
  cases h : fpn.findIdx? isSep with
  | none =>
      simp only
      unfold splitExt
      cases h2 : rfindIdx (fun c => c == '.') fpn with
      | none => simp
      | some pos =>
          by_cases hp : pos > 0
          · simp [hp, List.take_append_drop]
          · simp [hp]
  | some pos =>
      simp only
      cases h2 : rfindIdx isSep (fpn.drop pos) with
      | none =>
          simp only
          unfold splitExt
          cases h3 : rfindIdx (fun c => c == '.') (fpn.drop pos) with
          | none => simp [List.take_append_drop]
          | some d =>
              by_cases hd : d > 0
              · simp [hd, List.take_append_drop]
              · simp [hd, List.take_append_drop]
      | some p =>
          simp only
          unfold splitExt
          cases h3 : rfindIdx (fun c => c == '.') ((fpn.drop pos).drop (p + 1)) with
          | none => simp [List.take_append_drop]
          | some d =>
              by_cases hd : d > 0
              · simp only [hd, if_true, List.append_assoc]
                rw [List.take_append_drop, List.take_append_drop, List.take_append_drop]
              · simp [hd, List.take_append_drop]


/-- Membership is unchanged by consecutive deduplication. -/
theorem mem_dedupAdj {x : Int} : ∀ {l : List Int}, x ∈ dedupAdj l ↔ x ∈ l
  | [] => by simp [dedupAdj]
  | [a] => by simp [dedupAdj]
  | a :: b :: rest => by
      unfold dedupAdj
      by_cases hab : a = b
      · subst hab
        rw [if_pos rfl, mem_dedupAdj (l := a :: rest)]
        simp
      · simp only [if_neg hab, List.mem_cons]
        rw [mem_dedupAdj (l := b :: rest)]
        simp

/-- Consecutive deduplication of a weakly sorted list is strictly sorted. -/
theorem dedupAdj_sorted : ∀ {l : List Int}, l.Sorted (· ≤ ·) → (dedupAdj l).Sorted (· < ·)
  | [], _ => by simp [dedupAdj]
  | [a], _ => by simp [dedupAdj]
  | a :: b :: rest, h => by
      rw [List.sorted_cons] at h
      obtain ⟨ha, htail⟩ := h
      unfold dedupAdj
      by_cases hab : a = b
      · simpa [if_pos hab] using dedupAdj_sorted htail
      · have hlt : a < b := lt_of_le_of_ne (ha b (by simp)) hab
        simp only [if_neg hab]
        rw [List.sorted_cons]
        refine ⟨?_, dedupAdj_sorted htail⟩
        intro y hy
        have hy' : y ∈ b :: rest := mem_dedupAdj.mp hy
        rcases List.mem_cons.mp hy' with h1 | h1
        · omega
        · have := (List.sorted_cons.mp htail).1 y h1
          omega

/-- `sortInts` sorts weakly ascending. -/
theorem sortInts_sorted (l : List Int) : (sortInts l).Sorted (· ≤ ·) :=
  List.sorted_insertionSort (· ≤ ·) l

/-- `sortInts` preserves membership. -/
theorem mem_sortInts {x : Int} {l : List Int} : x ∈ sortInts l ↔ x ∈ l :=
  List.mem_insertionSort (· ≤ ·)

/-- The head of a strictly sorted list bounds every member from below. -/
theorem sorted_head_le {a : Int} {t : List Int} (h : (a :: t).Sorted (· < ·)) :
    ∀ x ∈ a :: t, a ≤ x := by
  intro x hx
  rcases List.mem_cons.mp hx with h1 | h1
  · omega
  · have := (List.sorted_cons.mp h).1 x h1
    omega

/-- The last element of a strictly sorted list bounds every member from
above. -/
theorem sorted_le_getLast? {l : List Int} (h : l.Sorted (· < ·)) :
    ∀ x ∈ l, ∀ y, l.getLast? = some y → x ≤ y := by
  induction l with
  | nil => simp
  | cons a t ih =>
      intro x hx y hy
      cases t with
      | nil =>
          simp only [List.getLast?_singleton, Option.some.injEq] at hy
          simp only [List.mem_singleton] at hx
          omega
      | cons b t2 =>
          rw [List.getLast?_cons_cons] at hy
          have htail := (List.sorted_cons.mp h).2
          rcases List.mem_cons.mp hx with h1 | h1
          · obtain ⟨hne2, hyeq⟩ :=
              List.mem_getLast?_eq_getLast (show y ∈ (b :: t2).getLast? from hy)
            have hymem : y ∈ b :: t2 := by
              rw [hyeq]
              exact List.getLast_mem hne2
            have := (List.sorted_cons.mp h).1 y hymem
            omega
          · exact ih htail x h1 y hy

/-- Inversion principle for `Seq::from_files`: a produced sequence exposes
the sorted deduplicated frame list as `indices`, its head and last element
as `start` / `end_`, the gap walk as `missed`, and `detect_padding` /
`gen_pattern` of the first file as `padding` / `pattern`. -/
theorem from_files_eq_some {files : List File} {idx : Nat} {s : core.Seq}
    (h : core.Seq.from_files files idx = some s) :
    ∃ f0 r a t, files = f0 :: r ∧
      dedupAdj (sortInts (files.filterMap (extractFrame idx))) = a :: t ∧
      s = { indices := a :: t
            missed := missedOf (a :: t)
            start := a
            end_ := (a :: t).getLast (List.cons_ne_nil a t)
            padding := detect_padding files idx
            pattern := gen_pattern f0 idx (detect_padding files idx) } := by
  cases files with
  | nil => simp [core.Seq.from_files] at h
  | cons f0 r =>
      unfold core.Seq.from_files at h
      cases heq : dedupAdj (sortInts ((f0 :: r).filterMap (extractFrame idx))) with
      | nil => rw [heq] at h; simp at h
      | cons x xs =>
          rw [heq] at h
          simp only [Option.some.injEq] at h
          exact ⟨f0, r, x, xs, rfl, rfl, h.symm⟩

/-- Indices of a produced sequence are strictly sorted. -/
theorem from_files_indices_sorted {files : List File} {idx : Nat} {s : core.Seq}
    (h : core.Seq.from_files files idx = some s) : s.indices.Sorted (· < ·) := by
  obtain ⟨f0, r, a, t, _, heq, hs⟩ := from_files_eq_some h
  have : (dedupAdj (sortInts (files.filterMap (extractFrame idx)))).Sorted (· < ·) :=
    dedupAdj_sorted (sortInts_sorted _)
  rw [heq] at this
  rw [hs]
  exact this

/-- Membership in a half-open integer range. -/
theorem mem_intRange {x a b : Int} : x ∈ intRange a b ↔ a ≤ x ∧ x < b := by
  unfold intRange
  constructor
  · intro hx
    obtain ⟨i, hi, rfl⟩ := List.mem_map.mp hx
    have hi' := List.mem_range.mp hi
    omega
  · intro hx
    refine List.mem_map.mpr ⟨(x - a).toNat, List.mem_range.mpr ?_, ?_⟩ <;> omega

/-- Half-open integer ranges are strictly sorted. -/
theorem intRange_sorted (a b : Int) : (intRange a b).Sorted (· < ·) := by
  unfold intRange
  exact List.Pairwise.map _ (fun i j h => by omega) (List.pairwise_lt_range _)

/-- Characterization of the gap walk: a frame is in `missedOf l` exactly
when it lies strictly between some consecutive pair of `l` whose gap is
within `MAX_MISSED_GAP`. -/
theorem mem_missedOf_iff {x : Int} :
    ∀ {l : List Int},
      x ∈ missedOf l ↔ ∃ p ∈ l.zip l.tail, p.1 < x ∧ x < p.2 ∧ p.2 - p.1 ≤ MAX_MISSED_GAP
  | [] => by simp [missedOf]
  | [a] => by simp [missedOf]
  | a :: b :: rest => by
      unfold missedOf
      rw [List.mem_append]
      have hseg :
          (x ∈ if 1 < b - a ∧ b - a ≤ MAX_MISSED_GAP then intRange (a + 1) b else []) ↔
            (a < x ∧ x < b ∧ b - a ≤ MAX_MISSED_GAP) := by
        split
        · next hc => rw [mem_intRange]; omega
        · next hc =>
            simp only [List.not_mem_nil, false_iff]
            rw [not_and, not_and]
            intro h1 h2
            omega
      rw [hseg, mem_missedOf_iff (l := b :: rest)]
      simp only [List.zip_cons_cons, List.tail_cons, List.mem_cons]
      constructor
      · rintro (⟨h1, h2, h3⟩ | ⟨p, hp, h1, h2, h3⟩)
        · exact ⟨(a, b), Or.inl rfl, h1, h2, h3⟩
        · exact ⟨p, Or.inr hp, h1, h2, h3⟩
      · rintro ⟨p, hp | hp, h1, h2, h3⟩
        · subst hp
          exact Or.inl ⟨h1, h2, h3⟩
        · exact Or.inr ⟨p, hp, h1, h2, h3⟩

/-- Over a strictly sorted frame list the gap walk yields a strictly sorted
list, disjoint from the frames, each member exceeding some frame. -/
theorem missedOf_strong :
    ∀ {l : List Int}, l.Sorted (· < ·) →
      (missedOf l).Sorted (· < ·) ∧ (∀ x ∈ missedOf l, x ∉ l) ∧
        (∀ x ∈ missedOf l, ∃ a ∈ l, a < x)
  | [], _ => by simp [missedOf]
  | [a], _ => by simp [missedOf]
  | a :: b :: rest, h => by
      have htail := (List.sorted_cons.mp h).2
      have hhead := (List.sorted_cons.mp h).1
      obtain ⟨ih1, ih2, ih3⟩ := missedOf_strong htail
      have hab : a < b := hhead b (by simp)
      have hseg : ∀ x, (x ∈ if 1 < b - a ∧ b - a ≤ MAX_MISSED_GAP
          then intRange (a + 1) b else []) → a < x ∧ x < b := by
        intro x hx
        split at hx
        · rw [mem_intRange] at hx; omega
        · simp at hx
      have hrec : ∀ y ∈ missedOf (b :: rest), b < y := by
        intro y hy
        obtain ⟨c, hc, hcy⟩ := ih3 y hy
        rcases List.mem_cons.mp hc with h1 | h1
        · omega
        · have := (List.sorted_cons.mp htail).1 c h1
          omega
      unfold missedOf
      refine ⟨?_, ?_, ?_⟩
      · rw [List.Sorted, List.pairwise_append]
        refine ⟨?_, ih1, ?_⟩
        · split
          · exact intRange_sorted _ _
          · simp
        · intro x hx y hy
          have := hseg x hx
          have := hrec y hy
          omega
      · intro x hx
        rw [List.mem_append] at hx
        rcases hx with hx | hx
        · have hx' := hseg x hx
          intro hmem
          rcases List.mem_cons.mp hmem with h1 | h1
          · omega
          · rcases List.mem_cons.mp h1 with h2 | h2
            · omega
            · have := (List.sorted_cons.mp htail).1 x h2
              omega
        · have hx' := hrec x hx
          have hx2 := ih2 x hx
          intro hmem
          rcases List.mem_cons.mp hmem with h1 | h1
          · omega
          · exact hx2 h1
      · intro x hx
        rw [List.mem_append] at hx
        rcases hx with hx | hx
        · exact ⟨a, by simp, (hseg x hx).1⟩
        · obtain ⟨c, hc, hcy⟩ := ih3 x hx
          exact ⟨c, List.mem_cons_of_mem a hc, hcy⟩

/-- C10: for every constructed Sequence, `missed` is sorted strictly
increasing (hence duplicate-free) and disjoint from `indices`: no frame
appears in both lists. -/
theorem seq_missed_sorted_disjoint (files : List File) (idx : Nat) (s : core.Seq)
    (h : core.Seq.from_files files idx = some s) :
    s.missed.Sorted (· < ·) ∧ ∀ x ∈ s.missed, x ∉ s.indices := by
  have hsorted := from_files_indices_sorted h
  obtain ⟨f0, r, a, t, _, heq, hs⟩ := from_files_eq_some h
  have hmiss : s.missed = missedOf s.indices := by rw [hs]
  obtain ⟨h1, h2, _⟩ := missedOf_strong hsorted
  rw [hmiss]
  exact ⟨h1, h2⟩

/-- C4: for every constructed Sequence, a frame is in `missed` exactly when
it lies strictly between a consecutive pair of sorted indices whose gap is
within the fixed ceiling `MAX_MISSED_GAP = 100000` (pairs with larger gaps
contribute nothing), while `start` / `end_` are the minimum and maximum
observed frames regardless; in particular `a_0001` and `a_9999999` yield
`start = 1`, `end = 9999999`, `missed = []`. -/
theorem seq_gap_detection :
    (∀ (files : List File) (idx : Nat) (s : core.Seq),
        core.Seq.from_files files idx = some s →
        (∀ x, x ∈ s.missed ↔
          ∃ p ∈ s.indices.zip s.indices.tail,
            p.1 < x ∧ x < p.2 ∧ p.2 - p.1 ≤ MAX_MISSED_GAP) ∧
        s.start ∈ s.indices ∧ s.end_ ∈ s.indices ∧
        (∀ x ∈ s.indices, s.start ≤ x ∧ x ≤ s.end_)) ∧
    (core.Seq.group_seqs gapFiles).map (fun s => (s.start, s.end_, s.missed)) =
      [(1, 9999999, [])] := by
  constructor
  · intro files idx s h
    have hsorted := from_files_indices_sorted h
    obtain ⟨f0, r, a, t, _, heq, hs⟩ := from_files_eq_some h
    have hmiss : s.missed = missedOf s.indices := by rw [hs]
    have hstart : s.start = a := by rw [hs]
    have hind : s.indices = a :: t := by rw [hs]
    have hend : s.end_ = (a :: t).getLast (List.cons_ne_nil a t) := by rw [hs]
    refine ⟨?_, ?_, ?_, ?_⟩
    · intro x
      rw [hmiss]
      exact mem_missedOf_iff
    · rw [hstart, hind]
      simp
    · rw [hend, hind]
      exact List.getLast_mem _
    · intro x hx
      rw [hind] at hsorted hx
      constructor
      · rw [hstart]
        exact sorted_head_le hsorted x hx
      · rw [hend]
        exact sorted_le_getLast? hsorted x hx _
          (List.getLast?_eq_getLast_of_ne_nil (List.cons_ne_nil a t))
  · decide

/-- Witness for C4 at the gap-ceiling example. -/
theorem seq_gap_detection_witness :
    core.Seq.from_files gapFiles 0 = some gapSeq ∧
    ((∀ x, x ∈ gapSeq.missed ↔
        ∃ p ∈ gapSeq.indices.zip gapSeq.indices.tail,
          p.1 < x ∧ x < p.2 ∧ p.2 - p.1 ≤ MAX_MISSED_GAP) ∧
      gapSeq.start ∈ gapSeq.indices ∧ gapSeq.end_ ∈ gapSeq.indices ∧
      (∀ x ∈ gapSeq.indices, gapSeq.start ≤ x ∧ x ≤ gapSeq.end_)) :=
  ⟨by decide, seq_gap_detection.1 gapFiles 0 gapSeq (by decide)⟩

/-- Witness for C10 at the gapped three-file example. -/
theorem seq_missed_sorted_disjoint_witness :
    core.Seq.from_files aaaFiles 0 = some aaaSeq ∧
    (aaaSeq.missed.Sorted (· < ·) ∧ ∀ x ∈ aaaSeq.missed, x ∉ aaaSeq.indices) :=
  ⟨by decide, seq_missed_sorted_disjoint aaaFiles 0 aaaSeq (by decide)⟩

/-- Counterexample to C2 as stated: `a_1.exr` and `a_01.exr` share one
bucket and one anchor sub-group, their frame slices both parse to `1`, and
deduplication leaves the produced Sequence with a single index — so
`Seq::group_seqs` does return a Sequence with `indices.len() = 1`. -/
theorem group_seqs_single_index_counterexample :
    (core.Seq.group_seqs dupFiles).map core.Seq.indices = [[1]] ∧
    ∃ s ∈ core.Seq.group_seqs dupFiles, s.indices.length = 1 := by decide

/-- C2 (amended): every Sequence returned by `Seq::group_seqs` has nonempty
`indices` (at least one index, not two — duplicated frame values can
collapse a two-file sub-group to a single index); a single file never
yields a Sequence; and two files yield at most one Sequence. -/
theorem group_seqs_min_size_amended :
    (∀ flist : List File, ∀ s ∈ core.Seq.group_seqs flist, s.indices ≠ []) ∧
    (∀ f : File, core.Seq.group_seqs [f] = []) ∧
    (∀ f g : File, (core.Seq.group_seqs [f, g]).length ≤ 1) := by
  refine ⟨?_, ?_, ?_⟩
  · intro flist s hs
    unfold core.Seq.group_seqs at hs
    rw [List.mem_flatMap] at hs
    obtain ⟨kv, _, hs2⟩ := hs
    by_cases h2 : kv.2.length < 2
    · rw [if_pos h2] at hs2
      simp at hs2
    · rw [if_neg h2] at hs2
      rw [List.mem_flatMap] at hs2
      obtain ⟨kv2, _, hs3⟩ := hs2
      by_cases h3 : 2 ≤ kv2.2.length
      · rw [if_pos h3] at hs3
        rw [Option.mem_toList] at hs3
        obtain ⟨f0, r, a, t, _, _, hseq⟩ := from_files_eq_some hs3
        rw [hseq]
        simp
      · rw [if_neg h3] at hs3
        simp at hs3
  · intro f
    cases hf : f.has_nums <;>
      simp [core.Seq.group_seqs, hf, upsert]
  · intro f g
    unfold core.Seq.group_seqs
    cases hf : f.has_nums <;> cases hg : g.has_nums
    · simp [hf, hg]
    · simp [hf, hg, upsert]
    · simp [hf, hg, upsert]
    · simp only [hf, hg, List.foldl_cons, List.foldl_nil, if_true]
      by_cases hk : signature_key f = signature_key g
      · rw [show upsert (upsert [] (signature_key f) f) (signature_key g) g
            = [(signature_key f, [f, g])] from by simp [upsert, hk]]
        simp only [List.flatMap_cons, List.flatMap_nil, List.append_nil]
        have hlen : ¬([f, g].length < 2) := by simp
        rw [if_neg hlen]
        by_cases ha : make_anchor_key f (find_frame_group [f, g])
            = make_anchor_key g (find_frame_group [f, g])
        · rw [show sub_group_by_anchors [f, g] (find_frame_group [f, g])
              = [(make_anchor_key f (find_frame_group [f, g]), [f, g])] from by
                simp [sub_group_by_anchors, upsert, ha]]
          simp only [List.flatMap_cons, List.flatMap_nil, List.append_nil]
          rw [if_pos (by simp)]
          cases core.Seq.from_files [f, g] (find_frame_group [f, g]) <;> simp
        · rw [show sub_group_by_anchors [f, g] (find_frame_group [f, g])
              = [(make_anchor_key f (find_frame_group [f, g]), [f]),
                 (make_anchor_key g (find_frame_group [f, g]), [g])] from by
                simp [sub_group_by_anchors, upsert, ha]]
          simp
      · rw [show upsert (upsert [] (signature_key f) f) (signature_key g) g
            = [(signature_key f, [f]), (signature_key g, [g])] from by
              simp [upsert, hk]]
        simp

/-- Witness for the amended C2 at the two-file shot example. -/
theorem group_seqs_min_size_amended_witness :
    shotSeq ∈ core.Seq.group_seqs shotFiles ∧ shotSeq.indices ≠ [] :=
  ⟨by decide, group_seqs_min_size_amended.1 shotFiles shotSeq (by decide)⟩

/-- A nonempty list whose members are all `w` dedups to `[w]`. -/
theorem dedup_all_eq {w : Nat} :
    ∀ {l : List Nat}, l ≠ [] → (∀ u ∈ l, u = w) → l.dedup = [w]
  | [], h, _ => absurd rfl h
  | [x], _, hall => by
      rw [show List.dedup [x] = [x] from
        List.dedup_cons_of_not_mem (by simp), hall x (by simp)]
  | x :: y :: t, _, hall => by
      have htail : (y :: t).dedup = [w] :=
        dedup_all_eq (by simp) (fun u hu => hall u (List.mem_cons_of_mem x hu))
      have hx : x ∈ y :: t := by
        rw [hall x (by simp)]
        have : y = w := hall y (by simp)
        rw [← this]
        simp
      rw [List.dedup_cons_of_mem hx, htail]

/-- Counterexample to C5 as stated: in `ovFiles` the surviving members
(whose slices parse) all have frame-group width `1`, yet the produced
Sequence has `padding = 0`, because `detect_padding` also counts the
20-digit member whose slice overflows `i64` parsing. -/
theorem detect_padding_surviving_counterexample :
    (core.Seq.group_seqs ovFiles).map core.Seq.padding = [0] ∧
    survivingWidths ovFiles 0 = [1, 1] ∧
    frameWidths ovFiles 0 = [1, 1, 20] := by decide

/-- C5 (amended): `padding` is computed from all members having a digit
group at the frame position — including members whose slice fails integer
parsing, not only "surviving" ones: it equals the common width when all
those widths agree, and `0` when two of them differ. -/
theorem detect_padding_all_members_amended (files : List File) (idx : Nat)
    (s : core.Seq) (h : core.Seq.from_files files idx = some s) :
    (∀ w, frameWidths files idx ≠ [] → (∀ u ∈ frameWidths files idx, u = w) →
        s.padding = w) ∧
    ((∃ u ∈ frameWidths files idx, ∃ v ∈ frameWidths files idx, u ≠ v) →
        s.padding = 0) := by
  obtain ⟨f0, r, a, t, _, _, hs⟩ := from_files_eq_some h
  have hpad : s.padding = detect_padding files idx := by rw [hs]
  rw [hpad]
  unfold detect_padding
  constructor
  · intro w hne hall
    rw [dedup_all_eq hne hall]
    simp
  · rintro ⟨u, hu, v, hv, huv⟩
    have hlen : ¬((frameWidths files idx).dedup.length = 1) := by
      intro hlen1
      obtain ⟨z, hz⟩ := List.length_eq_one.mp hlen1
      have hu' : u ∈ (frameWidths files idx).dedup := List.mem_dedup.mpr hu
      have hv' : v ∈ (frameWidths files idx).dedup := List.mem_dedup.mpr hv
      rw [hz] at hu' hv'
      simp at hu' hv'
      omega
    rw [if_neg hlen]

/-- Witness for the amended C5 at the overflow example. -/
theorem detect_padding_all_members_amended_witness :
    core.Seq.from_files ovFiles 0 = some ovSeq ∧
    ((∀ w, frameWidths ovFiles 0 ≠ [] → (∀ u ∈ frameWidths ovFiles 0, u = w) →
        ovSeq.padding = w) ∧
     ((∃ u ∈ frameWidths ovFiles 0, ∃ v ∈ frameWidths ovFiles 0, u ≠ v) →
        ovSeq.padding = 0)) :=
  ⟨by decide, detect_padding_all_members_amended ovFiles 0 ovSeq (by decide)⟩

/-- Invariant of the selection loop in `find_frame_group`: starting from a
zero best-count, folding the update rule over positions `0..m` lands on the
rightmost position with the maximal distinct-value count. -/
theorem argmax_fold_invariant (files : List File) :
    ∀ m : Nat, 0 < m → ∀ init : Nat × Nat, init.2 = 0 →
      ∀ p q,
        (List.range m).foldl
          (fun (b : Nat × Nat) i =>
            let c := distinctCount files i
            if b.2 ≤ c then (i, c) else b) init = (p, q) →
        p < m ∧ q = distinctCount files p ∧
        (∀ j, j < m → distinctCount files j ≤ q) ∧
        (∀ j, j < m → distinctCount files j = q → j ≤ p) := by
  intro m
  induction m with
  | zero => omega
  | succ m ih =>
      intro _ init hinit p q hfold
      by_cases hm : m = 0
      · subst hm
        rw [show List.range 1 = [0] from rfl, List.foldl_cons, List.foldl_nil] at hfold
        simp only [hinit] at hfold
        rw [if_pos (Nat.zero_le _)] at hfold
        injection hfold with h1 h2
        subst h1
        subst h2
        refine ⟨by omega, rfl, ?_, ?_⟩
        · intro j hj
          have hj0 : j = 0 := by omega
          subst hj0
          exact Nat.le_refl _
        · intro j hj _
          omega
      · have hm' : 0 < m := Nat.pos_of_ne_zero hm
        rw [List.range_succ, List.foldl_append, List.foldl_cons,
          List.foldl_nil] at hfold
        have hinner := ih hm' init hinit
          ((List.range m).foldl
            (fun (b : Nat × Nat) i =>
              let c := distinctCount files i
              if b.2 ≤ c then (i, c) else b) init).1
          ((List.range m).foldl
            (fun (b : Nat × Nat) i =>
              let c := distinctCount files i
              if b.2 ≤ c then (i, c) else b) init).2
          Prod.mk.eta.symm
        obtain ⟨hlt, heq, hmax, htie⟩ := hinner
        simp only at hfold
        by_cases hc :
            ((List.range m).foldl
              (fun (b : Nat × Nat) i =>
                let c := distinctCount files i
                if b.2 ≤ c then (i, c) else b) init).2 ≤ distinctCount files m
        · rw [if_pos hc] at hfold
          injection hfold with h1 h2
          subst h1
          subst h2
          refine ⟨by omega, rfl, ?_, ?_⟩
          · intro j hj
            rcases Nat.lt_succ_iff_lt_or_eq.mp hj with hj1 | hj1
            · exact Nat.le_trans (hmax j hj1) hc
            · subst hj1
              exact Nat.le_refl _
          · intro j hj _
            omega
        · rw [if_neg hc] at hfold
          rw [hfold] at heq hmax htie hlt hc
          simp only at heq hmax htie hlt hc
          refine ⟨by omega, heq, ?_, ?_⟩
          · intro j hj
            rcases Nat.lt_succ_iff_lt_or_eq.mp hj with hj1 | hj1
            · exact hmax j hj1
            · subst hj1
              omega
          · intro j hj hje
            rcases Nat.lt_succ_iff_lt_or_eq.mp hj with hj1 | hj1
            · exact htie j hj1 hje
            · subst hj1
              omega

/-- C3: `find_frame_group` returns the digit-group position with the most
distinct parsed integer values (members without a group at the position, or
whose slice fails parsing, do not count), preferring the higher (rightmost)
index on ties; on `tieFiles`, where both positions have two distinct
values, it picks position 1. -/
theorem find_frame_group_argmax (files : List File)
    (h : 0 < maxNumGroups files) :
    (find_frame_group files < maxNumGroups files ∧
     (∀ j, j < maxNumGroups files →
        distinctCount files j ≤ distinctCount files (find_frame_group files)) ∧
     (∀ j, j < maxNumGroups files →
        distinctCount files j = distinctCount files (find_frame_group files) →
          j ≤ find_frame_group files)) ∧
    find_frame_group tieFiles = 1 := by
  constructor
  · unfold find_frame_group
    rw [if_neg (by omega)]
    have H := argmax_fold_invariant files (maxNumGroups files) h
      (maxNumGroups files - 1, 0) rfl
      ((List.range (maxNumGroups files)).foldl
        (fun (b : Nat × Nat) i =>
          let c := distinctCount files i
          if b.2 ≤ c then (i, c) else b) (maxNumGroups files - 1, 0)).1
      ((List.range (maxNumGroups files)).foldl
        (fun (b : Nat × Nat) i =>
          let c := distinctCount files i
          if b.2 ≤ c then (i, c) else b) (maxNumGroups files - 1, 0)).2
      Prod.mk.eta.symm
    obtain ⟨hlt, heq, hmax, htie⟩ := H
    rw [heq] at hmax htie
    exact ⟨hlt, hmax, htie⟩
  · decide

/-- Witness for C3 at the two-group shot example. -/
theorem find_frame_group_argmax_witness :
    0 < maxNumGroups shotFiles ∧
    ((find_frame_group shotFiles < maxNumGroups shotFiles ∧
      (∀ j, j < maxNumGroups shotFiles →
         distinctCount shotFiles j ≤ distinctCount shotFiles (find_frame_group shotFiles)) ∧
      (∀ j, j < maxNumGroups shotFiles →
         distinctCount shotFiles j = distinctCount shotFiles (find_frame_group shotFiles) →
           j ≤ find_frame_group shotFiles)) ∧
     find_frame_group tieFiles = 1) :=
  ⟨by decide, find_frame_group_argmax shotFiles (by decide)⟩

/-- Filtering to the elements where `g` succeeds does not change a
`filterMap` by `g`. -/
theorem filterMap_filter_isSome (g : File → Option Int) :
    ∀ l : List File,
      (l.filter fun f => (g f).isSome).filterMap g = l.filterMap g := by
  intro l
  induction l with
  | nil => rfl
  | cons f t ih =>
      cases hgf : g f with
      | none =>
          rw [List.filter_cons_of_neg (by simp [hgf])]
          simp [List.filterMap_cons, hgf, ih]
      | some v =>
          rw [List.filter_cons_of_pos (by simp [hgf])]
          simp [List.filterMap_cons, hgf, ih]

/-- `Seq::from_files` yields nothing exactly when no valid frame survives. -/
theorem from_files_none_iff (files : List File) (idx : Nat) :
    core.Seq.from_files files idx = none ↔
      dedupAdj (sortInts (files.filterMap (extractFrame idx))) = [] := by
  cases files with
  | nil =>
      simp only [core.Seq.from_files, List.filterMap_nil, true_iff]
      rfl
  | cons f t =>
      unfold core.Seq.from_files
      cases h : dedupAdj (sortInts ((f :: t).filterMap (extractFrame idx))) with
      | nil => simp
      | cons a u => simp

/-- C8: a member whose digit-group bounds exceed its name or whose frame
slice fails `i64` parsing is skipped at member granularity — removing all
such members from the sub-group changes neither whether a Sequence is
produced nor its `indices`, `missed`, `start` or `end_`; grouping is a
total function and never aborts. -/
theorem from_files_skips_invalid (files : List File) (idx : Nat) :
    (core.Seq.from_files files idx).map core.Seq.indices =
      (core.Seq.from_files (files.filter fun f => (extractFrame idx f).isSome) idx).map
        core.Seq.indices ∧
    (core.Seq.from_files files idx).map core.Seq.missed =
      (core.Seq.from_files (files.filter fun f => (extractFrame idx f).isSome) idx).map
        core.Seq.missed ∧
    (core.Seq.from_files files idx).map core.Seq.start =
      (core.Seq.from_files (files.filter fun f => (extractFrame idx f).isSome) idx).map
        core.Seq.start ∧
    (core.Seq.from_files files idx).map core.Seq.end_ =
      (core.Seq.from_files (files.filter fun f => (extractFrame idx f).isSome) idx).map
        core.Seq.end_ ∧
    (core.Seq.from_files files idx).isSome =
      (core.Seq.from_files (files.filter fun f => (extractFrame idx f).isSome) idx).isSome := by
  have key : ((files.filter fun f => (extractFrame idx f).isSome).filterMap (extractFrame idx))
      = files.filterMap (extractFrame idx) := filterMap_filter_isSome _ files
  cases h1 : core.Seq.from_files files idx with
  | none =>
      have hf1 : dedupAdj (sortInts (files.filterMap (extractFrame idx))) = [] :=
        (from_files_none_iff files idx).mp h1
      have h2 : core.Seq.from_files (files.filter fun f => (extractFrame idx f).isSome) idx
          = none := by
        rw [from_files_none_iff, key]
        exact hf1
      rw [h2]
      simp
  | some s =>
      obtain ⟨f0, r, a, t, _, hfr, hs⟩ := from_files_eq_some h1
      cases h2 : core.Seq.from_files (files.filter fun f => (extractFrame idx f).isSome) idx with
      | none =>
          have := (from_files_none_iff _ idx).mp h2
          rw [key, hfr] at this
          simp at this
      | some s2 =>
          obtain ⟨g0, r2, a2, t2, _, hfr2, hs2⟩ := from_files_eq_some h2
          rw [key, hfr] at hfr2
          injection hfr2 with ha ht
          subst ha
          subst ht
          rw [hs, hs2]
          simp

/-- C7: names differing only in digit-run width produce equal masks —
`mask("img_1") = mask("img_100")` — files with the same drive, directory
and extension share a signature bucket, and grouping them yields exactly
one Sequence with `padding = 0`. -/
theorem mask_stability_padding :
    (File.new (str ("img_1"))).mask = (File.new (str ("img_100"))).mask ∧
    signature_key (File.new (str ("/tmp/img_1.exr"))) =
      signature_key (File.new (str ("/tmp/img_100.exr"))) ∧
    (core.Seq.group_seqs [File.new (str ("/tmp/img_1.exr")),
        File.new (str ("/tmp/img_100.exr"))]).map
      (fun s => (s.padding, s.indices)) = [(0, [1, 100])] := by decide

/-- The accumulator of `extractLoop` is a passive prefix. -/
theorem extractLoop_append :
    ∀ (l : List Char) (pos : Nat) (inD : Bool) (st : Nat) (acc : List (Nat × Nat)),
      extractLoop l pos inD st acc = acc ++ extractLoop l pos inD st [] := by
  intro l
  induction l with
  | nil =>
      intro pos inD st acc
      cases inD <;> simp [extractLoop]
  | cons c rest ih =>
      intro pos inD st acc
      cases inD <;> by_cases hc : c.isDigit <;>
        simp only [extractLoop, hc, if_true, if_false, Bool.false_eq_true,
          Bool.true_eq_false, ite_true, ite_false, List.nil_append]
      · rw [ih (pos + 1) true pos acc]
      · rw [ih (pos + 1) false st acc]
      · rw [ih (pos + 1) true st acc]
      · rw [ih (pos + 1) false st (acc ++ [(st, pos - st)]),
          ih (pos + 1) false st [(st, pos - st)]]
        simp [List.append_assoc]

/-- Weakening of the cursor in `GroupsWF`. -/
theorem GroupsWF_mono :
    ∀ (g : List (Nat × Nat)) (a b n : Nat), a ≤ b → GroupsWF b g n → GroupsWF a g n
  | [], _, _, _, _, _ => trivial
  | (_, _) :: _, _, _, _, hab, h => ⟨Nat.le_trans hab h.1, h.2.1, h.2.2⟩

/-- The parser's digit-run loop produces well-formed groups: each group
starts at or after the cursor and ends within the scanned text. -/
theorem extractLoop_wf :
    ∀ (l : List Char) (pos : Nat),
      (∀ st, st ≤ pos →
        GroupsWF st (extractLoop l pos true st []) (pos + l.length)) ∧
      (∀ st, GroupsWF pos (extractLoop l pos false st []) (pos + l.length)) := by
  intro l
  induction l with
  | nil =>
      intro pos
      constructor
      · intro st hst
        simp only [extractLoop, List.length_nil]
        exact ⟨Nat.le_refl st, by omega, trivial⟩
      · intro st
        simp only [extractLoop]
        trivial
  | cons c rest ih =>
      intro pos
      have hn : pos + (c :: rest).length = (pos + 1) + rest.length := by
        simp
        omega
      constructor
      · intro st hst
        by_cases hc : c.isDigit <;>
          simp only [extractLoop, hc, if_true, if_false, Bool.false_eq_true,
            Bool.true_eq_false, ite_true, ite_false, List.nil_append]
        · rw [hn]
          exact (ih (pos + 1)).1 st (by omega)
        · rw [extractLoop_append, hn]
          refine ⟨Nat.le_refl st, by omega, ?_⟩
          have hspos : st + (pos - st) = pos := by omega
          rw [hspos]
          exact GroupsWF_mono _ pos (pos + 1) _ (by omega) ((ih (pos + 1)).2 st)
      · intro st
        by_cases hc : c.isDigit <;>
          simp only [extractLoop, hc, if_true, if_false, Bool.false_eq_true,
            Bool.true_eq_false, ite_true, ite_false, List.nil_append]
        · rw [hn]
          exact (ih (pos + 1)).1 pos (by omega)
        · rw [hn]
          exact GroupsWF_mono _ pos (pos + 1) _ (by omega) ((ih (pos + 1)).2 st)

/-- Digit groups extracted from a name are well formed over its length. -/
theorem extract_num_groups_wf (name : List Char) :
    GroupsWF 0 (extract_num_groups name) name.length := by
  have := (extractLoop_wf name 0).2 0
  rw [Nat.zero_add] at this
  exact this

/-- Under well-formed groups the defensive skip of `gen_pattern`'s loop
never fires and the loop renders exactly the spec-side substitution. -/
theorem genLoop_renders (name : List Char) (fidx padding : Nat) :
    ∀ (groups : List (Nat × Nat)) (pos idx : Nat) (acc : List Char),
      GroupsWF pos groups name.length → pos ≤ name.length →
      (if (genLoop name name.length fidx padding groups idx pos acc).1 ≤ name.length
       then (genLoop name name.length fidx padding groups idx pos acc).2 ++
         name.drop (genLoop name name.length fidx padding groups idx pos acc).1
       else (genLoop name name.length fidx padding groups idx pos acc).2) =
        acc ++ renderSpecGo name fidx padding pos idx groups := by
  intro groups
  induction groups with
  | nil =>
      intro pos idx acc _ hpos
      simp only [genLoop, renderSpecGo]
      rw [if_pos hpos]
  | cons g rest ih =>
      obtain ⟨s, l⟩ := g
      intro pos idx acc hwf hpos
      obtain ⟨h1, h2, h3⟩ := hwf
      have hg : ¬(s > name.length ∨ s + l > name.length ∨ pos > s) := by omega
      simp only [genLoop, renderSpecGo, hg, if_false]
      rw [ih (s + l) (idx + 1) _ h3 (by omega)]
      by_cases hidx : idx = fidx
      · by_cases hpad : padding ≤ 1 <;>
          simp [hidx, hpad, List.append_assoc]
      · simp [hidx, List.append_assoc]

/-- C6: for pipeline files (whose `num_groups` come from the parser),
`gen_pattern` equals the spec-side pattern: the representative name with
the frame group replaced by `@` when `padding ≤ 1` and by `padding` copies
of `#` when `padding ≥ 2`, anchor groups kept literally, non-digit text
untouched, `drive` and the `\`-to-`/`-normalized directory prepended and
the extension appended; concretely `render_001.exr`/`render_002.exr` give
pattern `c:/temp/render_###.exr` with padding 3 and `file_1.exr`/
`file_2.exr` give `c:/temp/file_@.exr` with padding 1. -/
theorem gen_pattern_follows_spec :
    (∀ (f : File) (fidx padding : Nat),
        f.num_groups = extract_num_groups f.name →
        gen_pattern f fidx padding = pattern_spec f fidx padding) ∧
    (core.Seq.group_seqs [File.new (str ("c:/temp/render_001.exr")),
        File.new (str ("c:/temp/render_002.exr"))]).map
      (fun s => (s.pattern, s.padding)) = [(str ("c:/temp/render_###.exr"), 3)] ∧
    (core.Seq.group_seqs [File.new (str ("c:/temp/file_1.exr")),
        File.new (str ("c:/temp/file_2.exr"))]).map
      (fun s => (s.pattern, s.padding)) = [(str ("c:/temp/file_@.exr"), 1)] := by
  refine ⟨?_, by decide, by decide⟩
  intro f fidx padding hng
  have hwf : GroupsWF 0 f.num_groups f.name.length := by
    rw [hng]
    exact extract_num_groups_wf f.name
  have h := genLoop_renders f.name fidx padding f.num_groups 0 0 [] hwf (by omega)
  rw [List.nil_append] at h
  simp only [gen_pattern, pattern_spec]
  rw [h]

/-- Witness for C6 at a parser-produced file. -/
theorem gen_pattern_follows_spec_witness :
    (File.new (str ("c:/temp/render_001.exr"))).num_groups =
      extract_num_groups (File.new (str ("c:/temp/render_001.exr"))).name ∧
    gen_pattern (File.new (str ("c:/temp/render_001.exr"))) 0 3 =
      pattern_spec (File.new (str ("c:/temp/render_001.exr"))) 0 3 :=
  ⟨by decide, gen_pattern_follows_spec.1 _ 0 3 (by decide)⟩

/-- Correctness of the bisection loop on a sorted list: it reports `true`
on `[lo, hi)` exactly when the target occurs at an index of that range. -/
theorem bsGo_correct (xs : List Int) (t : Int) (hs : xs.Sorted (· ≤ ·)) :
    ∀ (k lo hi : Nat), hi - lo ≤ k → hi ≤ xs.length →
      (bsGo xs t lo hi = true ↔ ∃ i, lo ≤ i ∧ i < hi ∧ xs[i]? = some t) := by
  have hsle : ∀ i j (h1 : i < xs.length) (h2 : j < xs.length), i ≤ j → xs[i] ≤ xs[j] := by
    intro i j h1 h2 hij
    rcases Nat.lt_or_eq_of_le hij with h | h
    · exact List.pairwise_iff_getElem.mp hs i j h1 h2 h
    · subst h
      exact le_refl _
  intro k
  induction k with
  | zero =>
      intro lo hi hk hhi
      rw [bsGo, dif_neg (by omega : ¬lo < hi)]
      constructor
      · intro h
        simp at h
      · rintro ⟨i, h1, h2, _⟩
        omega
  | succ k ih =>
      intro lo hi hk hhi
      by_cases hlh : lo < hi
      · have hmidlt : (lo + hi) / 2 < hi := Nat.div_lt_of_lt_mul (by omega)
        have hmidge : lo ≤ (lo + hi) / 2 :=
          (Nat.le_div_iff_mul_le (by omega)).mpr (by omega)
        have hmid : (lo + hi) / 2 < xs.length := by omega
        rw [bsGo, dif_pos hlh]
        simp only [List.getElem?_eq_getElem hmid]
        by_cases h1 : xs[(lo + hi) / 2] < t
        · rw [if_pos h1, ih ((lo + hi) / 2 + 1) hi (by omega) hhi]
          constructor
          · rintro ⟨i, hi1, hi2, hieq⟩
            exact ⟨i, by omega, hi2, hieq⟩
          · rintro ⟨i, hi1, hi2, hieq⟩
            refine ⟨i, ?_, hi2, hieq⟩
            by_contra hcon
            have hile : i ≤ (lo + hi) / 2 := by omega
            have hilt : i < xs.length := by omega
            rw [List.getElem?_eq_getElem hilt, Option.some.injEq] at hieq
            have := hsle i ((lo + hi) / 2) hilt hmid hile
            omega
        · rw [if_neg h1]
          by_cases h2 : t < xs[(lo + hi) / 2]
          · rw [if_pos h2, ih lo ((lo + hi) / 2) (by omega) (by omega)]
            constructor
            · rintro ⟨i, hi1, hi2, hieq⟩
              exact ⟨i, hi1, by omega, hieq⟩
            · rintro ⟨i, hi1, hi2, hieq⟩
              refine ⟨i, hi1, ?_, hieq⟩
              by_contra hcon
              have hige : (lo + hi) / 2 ≤ i := by omega
              have hilt : i < xs.length := by omega
              rw [List.getElem?_eq_getElem hilt, Option.some.injEq] at hieq
              have := hsle ((lo + hi) / 2) i hmid hilt hige
              omega
          · rw [if_neg h2]
            have hvt : xs[(lo + hi) / 2] = t := by omega
            constructor
            · intro _
              exact ⟨(lo + hi) / 2, hmidge, hmidlt,
                by rw [List.getElem?_eq_getElem hmid, hvt]⟩
            · intro _
              rfl
      · rw [bsGo, dif_neg hlh]
        constructor
        · intro h
          simp at h
        · rintro ⟨i, h1, h2, _⟩
          omega

/-- On a sorted list, Rust's `binary_search(..).is_ok()` is membership. -/
theorem binary_search_iff_mem (xs : List Int) (t : Int) (hs : xs.Sorted (· ≤ ·)) :
    binary_search xs t = true ↔ t ∈ xs := by
  unfold binary_search
  rw [bsGo_correct xs t hs xs.length 0 xs.length (by omega) (le_refl _)]
  constructor
  · rintro ⟨i, _, hilt, hieq⟩
    rw [List.getElem?_eq_getElem hilt, Option.some.injEq] at hieq
    rw [← hieq]
    exact List.getElem_mem hilt
  · intro hmem
    obtain ⟨i, hilt, hieq⟩ := List.mem_iff_getElem.mp hmem
    exact ⟨i, Nat.zero_le _, hilt, by rw [List.getElem?_eq_getElem hilt, hieq]⟩

/-- C9: for every sequence with sorted indices and every frame, `get_file`
returns `Some` exactly when the frame occurs in `indices` (looked up by
binary search), the returned path being the pattern with the run of `#`
placeholders replaced by the zero-padded frame when `padding ≥ 2` and `@`
replaced by the bare decimal value otherwise; for an absent frame it
returns `None`. -/
theorem get_file_spec (s : PySeq) (frame : Int) (hs : s.indices.Sorted (· ≤ ·)) :
    s.get_file frame =
      if frame ∈ s.indices then
        some (if 2 ≤ s.padding then
            replaceAll s.pattern (List.replicate s.padding '#') (zeroPad s.padding frame)
          else replaceAll s.pattern (str ("@")) (intToString frame))
      else none := by
  unfold PySeq.get_file
  by_cases hmem : frame ∈ s.indices
  · rw [if_pos hmem, if_pos ((binary_search_iff_mem _ _ hs).mpr hmem)]
    unfold PySeq.format_frame
    rfl
  · rw [if_neg hmem,
      if_neg (fun h => hmem ((binary_search_iff_mem _ _ hs).mp h))]

/-- Witness for C9 at a concrete padded sequence. -/
theorem get_file_spec_witness :
    psEx.indices.Sorted (· ≤ ·) ∧
    psEx.get_file 2 =
      (if (2 : Int) ∈ psEx.indices then
        some (if 2 ≤ psEx.padding then
            replaceAll psEx.pattern (List.replicate psEx.padding '#') (zeroPad psEx.padding 2)
          else replaceAll psEx.pattern (str ("@")) (intToString 2))
      else none) :=
  ⟨by decide, get_file_spec psEx 2 (by decide)⟩
